import Mathlib

/-!
Verification of the minigrep command-line search tool.

Strings from the Rust source are modelled as `List Char`; byte offsets
(Rust `str` indices) are modelled by summing the UTF-8 encoding width of
each character, and every slicing operation that can panic in Rust is
modelled as an `Option`-valued function returning `none` where Rust
would panic.
-/

namespace Minigrep

/-- Byte length of one character in UTF-8, modelling Rust `char::len_utf8`. -/
def utf8Len (c : Char) : Nat :=
  if c.toNat < 0x80 then 1
  else if c.toNat < 0x800 then 2
  else if c.toNat < 0x10000 then 3
  else 4

/-- Byte length of a string (Rust `str::len`). -/
def byteLen (s : List Char) : Nat := (s.map utf8Len).sum

/-- Character-list representation of a Lean string literal. -/
def str (s : String) : List Char := s.data

/-- Model of Rust `char::is_whitespace` on the fragment of characters this
development exercises (the ASCII whitespace characters). -/
def isWs (c : Char) : Bool := c = ' ' || c = '\t' || c = '\r' || c = '\n'

/-- Accumulator-based splitter behind `split_whitespace`; `acc` holds the
characters of the current token in reverse. -/
def splitWsAux : List Char → List Char → List (List Char)
  | [], acc => if acc.isEmpty then [] else [acc.reverse]
  | c :: rest, acc =>
    if isWs c then
      if acc.isEmpty then splitWsAux rest [] else acc.reverse :: splitWsAux rest []
    else splitWsAux rest (c :: acc)

/-- Model of Rust `str::split_whitespace`: whitespace-delimited tokens, with
empty tokens skipped. -/
def split_whitespace (s : List Char) : List (List Char) := splitWsAux s []

/-- Model of the per-character action of Rust `str::to_lowercase`, restricted
to the characters this development exercises: ASCII uppercase letters map to
their lowercase forms, and U+0130 (LATIN CAPITAL LETTER I WITH DOT ABOVE)
maps to the two-character sequence U+0069 U+0307 exactly as in Unicode
SpecialCasing (the byte-length-changing case Rust also implements); all
other characters map to themselves. -/
def toLowercaseChar (c : Char) : List Char :=
  if c = Char.ofNat 0x130 then [Char.ofNat 0x69, Char.ofNat 0x307]
  else if 65 ≤ c.toNat ∧ c.toNat ≤ 90 then [Char.ofNat (c.toNat + 32)]
  else [c]

/-- Model of Rust `str::to_lowercase` (see `toLowercaseChar`). -/
def to_lowercase (s : List Char) : List Char := (s.map toLowercaseChar).flatten

/-- Model of the per-character action of Rust `str::to_uppercase` on ASCII. -/
def toUppercaseChar (c : Char) : List Char :=
  if 97 ≤ c.toNat ∧ c.toNat ≤ 122 then [Char.ofNat (c.toNat - 32)] else [c]

/-- Model of Rust `str::to_uppercase` (used on environment-variable keys). -/
def to_uppercase (s : List Char) : List Char := (s.map toUppercaseChar).flatten

/-- One-character ASCII lowercasing; on ASCII text `to_lowercase` agrees
with mapping this function over the characters. -/
def asciiLowerChar (c : Char) : Char :=
  if 65 ≤ c.toNat ∧ c.toNat ≤ 90 then Char.ofNat (c.toNat + 32) else c

/-- Boolean test that the first list is a leading segment of the second. -/
def isPre : List Char → List Char → Bool
  | [], _ => true
  | _ :: _, [] => false
  | p :: ps, c :: cs => p = c && isPre ps cs

/-- Model of Rust `str::find` for a literal pattern: the byte offset of the
first occurrence of `pat` in the haystack, if any.  UTF-8 is
self-synchronizing, so byte-level occurrences coincide with character-level
occurrences at character boundaries. -/
def find (pat : List Char) : List Char → Option Nat
  | [] => if isPre pat [] then some 0 else none
  | c :: rest =>
    if isPre pat (c :: rest) then some 0
    else (find pat rest).map (utf8Len c + ·)

/-- Model of Rust `str::contains` for a literal pattern. -/
def rustContains (hay pat : List Char) : Bool := (find pat hay).isSome

/-- Model of the Rust slice `&s[..n]` for a byte index `n`: `none` exactly
where Rust panics (index out of bounds or not on a character boundary). -/
def takeBytes : List Char → Nat → Option (List Char)
  | _, 0 => some []
  | [], _ + 1 => none
  | c :: rest, n + 1 =>
    if utf8Len c ≤ n + 1 then (takeBytes rest (n + 1 - utf8Len c)).map (c :: ·)
    else none

/-- Model of the Rust slice `&s[n..]` for a byte index `n`: `none` exactly
where Rust panics. -/
def dropBytes : List Char → Nat → Option (List Char)
  | s, 0 => some s
  | [], _ + 1 => none
  | c :: rest, n + 1 =>
    if utf8Len c ≤ n + 1 then dropBytes rest (n + 1 - utf8Len c)
    else none

/-- Model of the `colored` crate's `.red().bold()` styling as the ANSI
escape sequences it emits around the styled text. -/
def red_bold (s : List Char) : List Char := str "\x1b[1;31m" ++ s ++ str "\x1b[0m"

/-- Configuration record from `src/lib.rs` (`pub struct Config`). -/
structure Config where
  query : List Char
  file_path : List Char
  ignore_case : Bool
  no_color : Bool
  line_number : Bool
  stats : Bool
deriving DecidableEq, Repr

/-- Model of `conditional_lowercase` from `src/lib.rs`. -/
def conditional_lowercase (s : List Char) (ignore_case : Bool) : List Char :=
  if ignore_case then to_lowercase s else s

/-- Option-valued map over a list, `none` as soon as one element fails;
models a Rust iterator pipeline whose body can panic. -/
def mapOption (f : α → Option β) : List α → Option (List β)
  | [] => some []
  | x :: xs =>
    match f x with
    | none => none
    | some y => (mapOption f xs).map (y :: ·)

/-- Model of the per-token body of the `search` highlighting closure
(src/lib.rs lines 108–125): find the lowered query in the token's
comparison form and re-slice the ORIGINAL token at the resulting byte
offsets.  The returned flag records whether this token matched (the
`matched_words += 1` branch); `none` models the slicing panics. -/
def highlightToken (query : List Char) (no_color : Bool)
    (original lowered : List Char) : Option (List Char × Bool) :=
  match find query lowered with
  | none => some (original, false)
  | some pos =>
    match takeBytes original pos, dropBytes original pos with
    | some before, some tail =>
      match takeBytes tail (byteLen query), dropBytes tail (byteLen query) with
      | some matched, some after =>
        if no_color then some (before ++ matched ++ after, true)
        else some (before ++ red_bold matched ++ after, true)
      | _, _ => none
    | _, _ => none

/-- Model of the per-line body of `search` (src/lib.rs lines 101–132):
the outer `Option` models a panic, the inner `Option` is `some` exactly
when the line matches, carrying the highlighted line and the number of
matched tokens on it. -/
def searchLine (query : List Char) (config : Config) (line : List Char) :
    Option (Option (List Char × Nat)) :=
  let haystack := conditional_lowercase line config.ignore_case
  if rustContains haystack query then
    match mapOption (fun p => highlightToken query config.no_color p.1 p.2)
        ((split_whitespace line).zip (split_whitespace haystack)) with
    | none => none
    | some pieces =>
      some (some (List.intercalate (str " ") (pieces.map Prod.fst),
        (pieces.filter Prod.snd).length))
  else some none

/-- Main accumulation loop of `search` over the enumerated lines, threading
the line index; returns (results, found_indexes, scanned_lines,
matched_words). -/
def searchGo (query : List Char) (config : Config) :
    Nat → List (List Char) → Option (List (List Char) × List Nat × Nat × Nat)
  | _, [] => some ([], [], 0, 0)
  | idx, line :: rest =>
    match searchLine query config line, searchGo query config (idx + 1) rest with
    | some r, some (res, idxs, scanned, mw) =>
      match r with
      | some lw => some (lw.1 :: res, idx :: idxs, scanned + 1, mw + lw.2)
      | none => some (res, idxs, scanned + 1, mw)
    | _, _ => none

/-- Splits on `'\n'`, keeping every piece (so n newlines yield n+1 pieces). -/
def splitOnNl : List Char → List (List Char)
  | [] => [[]]
  | c :: rest =>
    if c = '\n' then [] :: splitOnNl rest
    else
      match splitOnNl rest with
      | [] => [[c]]
      | p :: ps => (c :: p) :: ps

/-- Removes one trailing carriage return, if present. -/
def stripCr (s : List Char) : List Char :=
  if s.getLast? = some '\r' then s.dropLast else s

/-- Model of Rust `str::lines`: split at `'\n'`, strip a `'\r'` preceding
each split point, and do not produce a final empty line for a trailing
newline. -/
def rustLines (s : List Char) : List (List Char) :=
  let parts := splitOnNl s
  let body := parts.dropLast.map stripCr
  match parts.getLast? with
  | some last => if last.isEmpty then body else body ++ [last]
  | none => body

/-- Result bundle of `search`: the tuple
`(Vec<String>, Vec<usize>, i32, i32)` from src/lib.rs line 89. -/
structure SearchOut where
  results : List (List Char)
  found_indexes : List Nat
  scanned_lines : Nat
  matched_words : Nat
deriving DecidableEq, Repr

/-- Model of `search` from src/lib.rs lines 89–137; `none` models a panic
(the counters are `i32` in the source; the counts involved never approach
the overflow range, so they are modelled as `Nat`). -/
def search (contents : List Char) (config : Config) : Option SearchOut :=
  let query := conditional_lowercase config.query config.ignore_case
  match searchGo query config 0 (rustLines contents) with
  | none => none
  | some r => some ⟨r.1, r.2.1, r.2.2.1, r.2.2.2⟩

/-- Observable outcome of `run` after the file has been read: either the
"no results" message is printed and `run` returns `Ok`, or `paginate` is
invoked on the result buffer. -/
inductive RunResult where
  | noResults (msg : List Char)
  | paginated (results : List (List Char)) (indexes : List Nat)
deriving DecidableEq, Repr

/-- Model of `run` from src/lib.rs lines 139–157, as a function of the file
contents (the `fs::read_to_string` call and the stats `println!` are I/O
with no influence on the control flow modelled here); `none` models a panic
inside `search`. -/
def run (contents : List Char) (config : Config) : Option RunResult :=
  match search contents config with
  | none => none
  | some out =>
    if out.results.isEmpty then some (.noResults (str "No results found."))
    else some (.paginated out.results out.found_indexes)

/-- Navigation events consumed by the `paginate` event loop (Escape and
Ctrl+C leave the loop and are therefore not state transitions; `other`
covers every remaining event, the `_ => {}` arm). -/
inductive PagerEvent where
  | up
  | down
  | pageUp
  | pageDown
  | home
  | endKey
  | other
deriving DecidableEq, Repr

/-- One step of the `paginate` event loop state (src/lib.rs lines 180–221):
the new `current_offset` produced from the previous one by a single event.
Nat subtraction is truncated, exactly like `usize::saturating_sub`. -/
def pagerStep (total page_height offset : Nat) : PagerEvent → Nat
  | .up => if 0 < offset then offset - 1 else offset
  | .down => if offset + page_height < total then offset + 1 else offset
  | .pageUp => offset - page_height
  | .pageDown => min (offset + page_height) (total - page_height)
  | .home => 0
  | .endKey => total - page_height
  | .other => offset

/-- Offset reached by `paginate` after a finite sequence of navigation
events, starting from the initial `current_offset = 0`. -/
def paginate (total page_height : Nat) (events : List PagerEvent) : Nat :=
  events.foldl (pagerStep total page_height) 0

/-- Nat division as Rust evaluates it: division by zero panics (`none`). -/
def rustDiv (a b : Nat) : Option Nat := if b = 0 then none else some (a / b)

/-- Model of the footer arithmetic of `render_page` (src/lib.rs lines
277–288): current page, total pages, and the 1-based visible range; the
screen writes themselves are I/O.  `none` models the divide-by-zero panic. -/
def render_page (offset page_height total : Nat) : Option (Nat × Nat × Nat × Nat) :=
  match rustDiv offset page_height, rustDiv (total + page_height - 1) page_height with
  | some q1, some q2 => some (q1 + 1, q2, offset + 1, min (offset + page_height) total)
  | _, _ => none

/-- Distance from `x :: xs` to the second argument, given the distance
function `f` from `xs`; the inner structural recursion of `levenshtein`. -/
def levConsFn (x : Char) (f : List Char → Nat) : List Char → Nat
  | [] => 1 + f []
  | y :: ys =>
    if x = y then f ys
    else 1 + min (f (y :: ys)) (min (levConsFn x f ys) (f ys))

/-- Unit-cost edit distance, modelling `strsim::levenshtein`: the standard
recurrence (deletion, insertion, substitution, free on equal heads),
written with structural recursion so that it evaluates by reduction. -/
def levenshtein : List Char → List Char → Nat
  | [] => fun ys => ys.length
  | x :: xs => levConsFn x (levenshtein xs)

/-- Fold behind `minByKey`, keeping the earliest element of least key. -/
def minByKeyAux (key : α → Nat) (best : α) : List α → α
  | [] => best
  | x :: xs => minByKeyAux key (if key x < key best then x else best) xs

/-- Model of Rust `Iterator::min_by_key`: the first element attaining the
minimum key, or `none` on an empty list. -/
def minByKey (key : α → Nat) : List α → Option α
  | [] => none
  | x :: xs => some (minByKeyAux key x xs)

/-- Boolean membership of a string in a list of strings, modelling the
`contains` tests on `allowed_flags`, the environment set and `cli_flags`. -/
def memB (x : List Char) (l : List (List Char)) : Bool := l.any (fun y => y = x)

/-- The `allowed_flags` array from `Config::build` (src/lib.rs line 37). -/
def allowed_flags : List (List Char) :=
  [str "ignore-case", str "no-color", str "line-number", str "stats"]

/-- Model of `arg.strip_prefix("--")`. -/
def stripDashes : List Char → Option (List Char)
  | '-' :: '-' :: rest => some rest
  | _ => none

/-- Model of the flag-parsing loop of `Config::build` (src/lib.rs lines
40–58): collects recognized flags, rejects the first unrecognized or
malformed one with the exact error message the source formats. -/
def parseFlags : List (List Char) → Except (List Char) (List (List Char))
  | [] => .ok []
  | arg :: rest =>
    match stripDashes arg with
    | some flag =>
      if memB flag allowed_flags then
        match parseFlags rest with
        | .ok cli => .ok (flag :: cli)
        | .error e => .error e
      else
        .error (str "Unrecognized flag '--" ++ flag ++ str "'. Did you mean '--" ++
          (minByKey (levenshtein flag) allowed_flags).getD [] ++ str "'?")
    | none =>
      .error (str "Invalid flag format '" ++ arg ++ str "'. Flags must start with '--'")

/-- Model of `Config::build` (src/lib.rs lines 25–74).  The ambient
environment is passed explicitly as the list of environment-variable keys
(`env::vars` is I/O); the source uppercases each key before the presence
tests. -/
def Config.build (envKeys args : List (List Char)) : Except (List Char) Config :=
  if args.length < 3 then .error (str "Not enough arguments!")
  else
    let flags := envKeys.map to_uppercase
    match parseFlags (args.drop 3) with
    | .error e => .error e
    | .ok cli_flags =>
      .ok { query := args.getD 1 []
            file_path := args.getD 2 []
            ignore_case := memB (str "IGNORE_CASE") flags || memB (str "ignore-case") cli_flags
            no_color := memB (str "NO_COLOR") flags || memB (str "no-color") cli_flags
            line_number := memB (str "LINE_NUMBER") flags || memB (str "line-number") cli_flags
            stats := memB (str "STATS") flags || memB (str "stats") cli_flags }

/-- Specification-side count for C1, following the spec's words: the number
of source lines whose case-normalized content contains the equally
normalized query as a substring. -/
def spec_matching_line_count (contents : List Char) (config : Config) : Nat :=
  ((rustLines contents).filter (fun line =>
    rustContains (conditional_lowercase line config.ignore_case)
      (conditional_lowercase config.query config.ignore_case))).length

/-- ASCII character predicate (code point below 128). -/
def isAsciiChar (c : Char) : Bool := c.toNat < 128

/-- Every character of the string is ASCII. -/
def allAscii (s : List Char) : Bool := s.all isAsciiChar

/-! ### Basic facts about the per-line search step -/

theorem searchLine_eq_some_none_iff (query : List Char) (config : Config)
    (line : List Char) :
    searchLine query config line = some none ↔
      rustContains (conditional_lowercase line config.ignore_case) query = false := by
  unfold searchLine
  by_cases h : rustContains (conditional_lowercase line config.ignore_case) query
  · simp only [h, if_true]
    cases hm : mapOption (fun p => highlightToken query config.no_color p.1 p.2)
        ((split_whitespace line).zip
          (split_whitespace (conditional_lowercase line config.ignore_case))) <;>
      simp [hm, h]
  · simp [h]

theorem searchLine_eq_some_some (query : List Char) (config : Config)
    (line : List Char) (lw : List Char × Nat)
    (h : searchLine query config line = some (some lw)) :
    rustContains (conditional_lowercase line config.ignore_case) query = true := by
  by_cases hc : rustContains (conditional_lowercase line config.ignore_case) query
  · exact hc
  · rw [searchLine, if_neg hc] at h
    simp at h

/-! ### Structural facts about the accumulation loop of `search` -/

theorem searchGo_spec (query : List Char) (config : Config) :
    ∀ (lines : List (List Char)) (idx : Nat) t,
      searchGo query config idx lines = some t →
      t.1.length = (lines.filter (fun l =>
          rustContains (conditional_lowercase l config.ignore_case) query)).length ∧
      t.1.length = t.2.1.length ∧
      t.2.2.1 = lines.length := by
  intro lines
  induction lines with
  | nil =>
    intro idx t h
    simp [searchGo] at h
    simp [← h]
  | cons line rest ih =>
    intro idx t h
    rw [searchGo] at h
    cases hl : searchLine query config line with
    | none => rw [hl] at h; simp at h
    | some r =>
      rw [hl] at h
      cases hg : searchGo query config (idx + 1) rest with
      | none => rw [hg] at h; simp at h
      | some t2 =>
        rw [hg] at h
        obtain ⟨res, idxs, scanned, mw⟩ := t2
        have ih2 := ih (idx + 1) (res, idxs, scanned, mw) hg
        cases r with
        | none =>
          have hc := (searchLine_eq_some_none_iff query config line).mp hl
          simp only [Option.some.injEq] at h
          subst h
          simp [List.filter_cons, hc] at ih2 ⊢
          omega
        | some lw =>
          have hc := searchLine_eq_some_some query config line lw hl
          simp only [Option.some.injEq] at h
          subst h
          simp [List.filter_cons, hc] at ih2 ⊢
          omega

theorem searchGo_indexes_mono (query : List Char) (config : Config) :
    ∀ (lines : List (List Char)) (idx : Nat) t,
      searchGo query config idx lines = some t →
      t.2.1.Pairwise (· < ·) ∧ ∀ i ∈ t.2.1, idx ≤ i := by
  intro lines
  induction lines with
  | nil =>
    intro idx t h
    simp [searchGo] at h
    simp [← h]
  | cons line rest ih =>
    intro idx t h
    rw [searchGo] at h
    cases hl : searchLine query config line with
    | none => rw [hl] at h; simp at h
    | some r =>
      rw [hl] at h
      cases hg : searchGo query config (idx + 1) rest with
      | none => rw [hg] at h; simp at h
      | some t2 =>
        rw [hg] at h
        obtain ⟨res, idxs, scanned, mw⟩ := t2
        have ih2 := ih (idx + 1) (res, idxs, scanned, mw) hg
        cases r with
        | none =>
          simp only [Option.some.injEq] at h
          subst h
          refine ⟨ih2.1, fun i hi => ?_⟩
          exact Nat.le_of_succ_le (ih2.2 i hi)
        | some lw =>
          simp only [Option.some.injEq] at h
          subst h
          constructor
          · refine List.Pairwise.cons (fun i hi => ?_) ih2.1
            exact Nat.lt_of_succ_le (ih2.2 i hi)
          · intro i hi
            rcases List.mem_cons.mp hi with rfl | hi
            · exact Nat.le_refl _
            · exact Nat.le_of_succ_le (ih2.2 i hi)

theorem search_eq_some (contents : List Char) (config : Config) (out : SearchOut)
    (h : search contents config = some out) :
    searchGo (conditional_lowercase config.query config.ignore_case) config 0
      (rustLines contents)
      = some (out.results, out.found_indexes, out.scanned_lines, out.matched_words) := by
  rw [search] at h
  cases hg : searchGo (conditional_lowercase config.query config.ignore_case) config 0
      (rustLines contents) with
  | none => rw [hg] at h; simp at h
  | some t =>
    rw [hg] at h
    simp only [Option.some.injEq] at h
    subst h
    rfl

theorem rustContains_nil (hay : List Char) : rustContains hay [] = true := by
  cases hay <;> simp [rustContains, find, isPre]

theorem conditional_lowercase_nil (ic : Bool) : conditional_lowercase [] ic = [] := by
  cases ic <;> simp [conditional_lowercase, to_lowercase]

/-! ### Byte-offset slicing lemmas -/

theorem utf8Len_pos (c : Char) : 0 < utf8Len c := by
  rw [utf8Len]
  split_ifs <;> decide

theorem byteLen_nil : byteLen [] = 0 := rfl

theorem byteLen_cons (c : Char) (s : List Char) :
    byteLen (c :: s) = utf8Len c + byteLen s := by
  simp [byteLen]

theorem byteLen_append (a b : List Char) :
    byteLen (a ++ b) = byteLen a + byteLen b := by
  simp [byteLen]

theorem takeBytes_zero (s : List Char) : takeBytes s 0 = some [] := by
  cases s <;> rfl

theorem dropBytes_zero (s : List Char) : dropBytes s 0 = some s := by
  cases s <;> rfl

theorem takeBytes_byteLen (pre rest : List Char) :
    takeBytes (pre ++ rest) (byteLen pre) = some pre := by
  induction pre with
  | nil => exact takeBytes_zero rest
  | cons c pre ih =>
    have hpos := utf8Len_pos c
    rw [List.cons_append, byteLen_cons]
    obtain ⟨m, hm⟩ : ∃ m, utf8Len c + byteLen pre = m + 1 :=
      ⟨utf8Len c + byteLen pre - 1, by omega⟩
    rw [hm]
    simp only [takeBytes]
    rw [if_pos (by omega : utf8Len c ≤ m + 1)]
    have harg : m + 1 - utf8Len c = byteLen pre := by omega
    rw [harg, ih]
    rfl

theorem dropBytes_byteLen (pre rest : List Char) :
    dropBytes (pre ++ rest) (byteLen pre) = some rest := by
  induction pre with
  | nil => exact dropBytes_zero rest
  | cons c pre ih =>
    have hpos := utf8Len_pos c
    rw [List.cons_append, byteLen_cons]
    obtain ⟨m, hm⟩ : ∃ m, utf8Len c + byteLen pre = m + 1 :=
      ⟨utf8Len c + byteLen pre - 1, by omega⟩
    rw [hm]
    simp only [dropBytes]
    rw [if_pos (by omega : utf8Len c ≤ m + 1)]
    have harg : m + 1 - utf8Len c = byteLen pre := by omega
    rw [harg, ih]

theorem isPre_iff (p : List Char) : ∀ s, isPre p s = true ↔ ∃ t, s = p ++ t := by
  induction p with
  | nil =>
    intro s
    simp [isPre]
  | cons x xs ih =>
    intro s
    cases s with
    | nil =>
      rw [isPre]
      simp
    | cons c cs =>
      rw [isPre]
      simp only [Bool.and_eq_true, decide_eq_true_eq]
      constructor
      · rintro ⟨rfl, hp⟩
        obtain ⟨t, ht⟩ := (ih cs).mp hp
        exact ⟨t, by rw [ht, List.cons_append]⟩
      · rintro ⟨t, ht⟩
        rw [List.cons_append] at ht
        injection ht with h1 h2
        exact ⟨h1.symm, (ih cs).mpr ⟨t, h2⟩⟩

theorem find_eq_some (pat : List Char) :
    ∀ hay n, find pat hay = some n →
      ∃ pre post, hay = pre ++ (pat ++ post) ∧ byteLen pre = n := by
  intro hay
  induction hay with
  | nil =>
    intro n h
    rw [find] at h
    by_cases hp : isPre pat []
    · rw [if_pos hp] at h
      obtain ⟨t, ht⟩ := (isPre_iff pat []).mp hp
      have hpat : pat = [] := by
        cases pat with
        | nil => rfl
        | cons a as => simp at ht
      subst hpat
      simp at ht
      subst ht
      simp only [Option.some.injEq] at h
      exact ⟨[], [], rfl, h⟩
    · rw [if_neg hp] at h
      simp at h
  | cons c rest ih =>
    intro n h
    rw [find] at h
    by_cases hp : isPre pat (c :: rest)
    · rw [if_pos hp] at h
      simp only [Option.some.injEq] at h
      obtain ⟨t, ht⟩ := (isPre_iff pat (c :: rest)).mp hp
      exact ⟨[], t, ht, h⟩
    · rw [if_neg hp] at h
      cases hf : find pat rest with
      | none => rw [hf] at h; simp at h
      | some m =>
        rw [hf] at h
        simp at h
        obtain ⟨pre, post, hrest, hpre⟩ := ih m hf
        refine ⟨c :: pre, post, ?_, ?_⟩
        · rw [hrest, List.cons_append]
        · rw [byteLen_cons, hpre, h]

theorem find_le (pat hay : List Char) (n : Nat) (h : find pat hay = some n) :
    n + byteLen pat ≤ byteLen hay := by
  obtain ⟨pre, post, hh, hn⟩ := find_eq_some pat hay n h
  rw [hh, byteLen_append, byteLen_append, ← hn]
  omega

/-! ### No-panic lemmas for `search` -/

theorem mapOption_isSome (f : α → Option β) :
    ∀ l : List α, (∀ x ∈ l, (f x).isSome = true) →
      (mapOption f l).isSome = true := by
  intro l
  induction l with
  | nil => intro _; rfl
  | cons x xs ih =>
    intro h
    rw [mapOption]
    have hx := h x (List.mem_cons_self x xs)
    have hxs := ih (fun z hz => h z (List.mem_cons_of_mem _ hz))
    cases hfx : f x with
    | none => rw [hfx] at hx; simp at hx
    | some y =>
      cases hm : mapOption f xs with
      | none => rw [hm] at hxs; simp at hxs
      | some l2 => simp

theorem zip_self_eq (l : List α) : ∀ p ∈ l.zip l, p.1 = p.2 := by
  induction l with
  | nil => simp
  | cons x xs ih =>
    intro p hp
    rw [List.zip_cons_cons] at hp
    rcases List.mem_cons.mp hp with rfl | hp2
    · rfl
    · exact ih p hp2

theorem zip_map_right_mem (l : List α) (g : α → β) :
    ∀ p ∈ l.zip (l.map g), p.1 ∈ l ∧ p.2 = g p.1 := by
  induction l with
  | nil => simp
  | cons x xs ih =>
    intro p hp
    rw [List.map_cons, List.zip_cons_cons] at hp
    rcases List.mem_cons.mp hp with rfl | hp2
    · exact ⟨List.mem_cons_self _ _, rfl⟩
    · obtain ⟨h1, h2⟩ := ih p hp2
      exact ⟨List.mem_cons_of_mem _ h1, h2⟩

theorem highlightToken_self_isSome (query : List Char) (nc : Bool) (t : List Char) :
    (highlightToken query nc t t).isSome = true := by
  cases hf : find query t with
  | none => simp [highlightToken, hf]
  | some pos =>
    obtain ⟨pre, post, ht, hn⟩ := find_eq_some query t pos hf
    subst ht
    subst hn
    simp only [highlightToken, hf, takeBytes_byteLen, dropBytes_byteLen]
    cases nc <;> simp

theorem searchLine_isSome_of_pairs (query : List Char) (config : Config)
    (line : List Char)
    (hp : ∀ p ∈ (split_whitespace line).zip
        (split_whitespace (conditional_lowercase line config.ignore_case)),
      (highlightToken query config.no_color p.1 p.2).isSome = true) :
    (searchLine query config line).isSome = true := by
  rw [searchLine]
  by_cases hc : rustContains (conditional_lowercase line config.ignore_case) query
  · have hm := mapOption_isSome _ _ hp
    cases hmo : mapOption (fun p => highlightToken query config.no_color p.1 p.2)
        ((split_whitespace line).zip
          (split_whitespace (conditional_lowercase line config.ignore_case))) with
    | none => rw [hmo] at hm; simp at hm
    | some pieces => simp [hc, hmo]
  · simp [hc]

theorem searchLine_isSome_sensitive (query : List Char) (config : Config)
    (line : List Char) (hic : config.ignore_case = false) :
    (searchLine query config line).isSome = true := by
  apply searchLine_isSome_of_pairs
  intro p hp
  rw [hic] at hp
  simp only [conditional_lowercase, Bool.false_eq_true, if_false] at hp
  have he := zip_self_eq (split_whitespace line) p hp
  rw [← he]
  exact highlightToken_self_isSome query config.no_color p.1

theorem searchGo_isSome (query : List Char) (config : Config) :
    ∀ (lines : List (List Char)) (idx : Nat),
      (∀ l ∈ lines, (searchLine query config l).isSome = true) →
      (searchGo query config idx lines).isSome = true := by
  intro lines
  induction lines with
  | nil => intro idx _; rfl
  | cons line rest ih =>
    intro idx h
    rw [searchGo]
    have h1 := h line (List.mem_cons_self _ _)
    have h2 := ih (idx + 1) (fun l hl => h l (List.mem_cons_of_mem _ hl))
    cases hl2 : searchLine query config line with
    | none => rw [hl2] at h1; simp at h1
    | some r =>
      cases hg : searchGo query config (idx + 1) rest with
      | none => rw [hg] at h2; simp at h2
      | some t =>
        obtain ⟨res, idxs, sc, mw⟩ := t
        cases r with
        | none => simp
        | some lw => simp

/-! ### ASCII lemmas -/

theorem toNat_ofNat_valid (n : Nat) (h : n < 55296) : (Char.ofNat n).toNat = n := by
  rw [Char.ofNat, dif_pos (Or.inl h)]
  rfl

theorem isWs_eq_false_of_toNat (c : Char) (h : 33 ≤ c.toNat) : isWs c = false := by
  have hs : c ≠ ' ' := fun he => absurd h (by rw [he]; decide)
  have ht : c ≠ '\t' := fun he => absurd h (by rw [he]; decide)
  have hr : c ≠ '\r' := fun he => absurd h (by rw [he]; decide)
  have hn : c ≠ '\n' := fun he => absurd h (by rw [he]; decide)
  simp [isWs, hs, ht, hr, hn]

theorem utf8Len_ascii (c : Char) (h : isAsciiChar c = true) : utf8Len c = 1 := by
  have hlt : c.toNat < 128 := by simpa [isAsciiChar] using h
  rw [utf8Len, if_pos (by omega : c.toNat < 0x80)]

theorem byteLen_ascii (s : List Char) (h : allAscii s = true) :
    byteLen s = s.length := by
  induction s with
  | nil => rfl
  | cons c cs ih =>
    rw [allAscii, List.all_cons, Bool.and_eq_true] at h
    rw [byteLen_cons, utf8Len_ascii c h.1, List.length_cons, ih h.2]
    omega

theorem takeBytes_ascii (s : List Char) :
    ∀ n, allAscii s = true → n ≤ s.length → takeBytes s n = some (s.take n) := by
  induction s with
  | nil =>
    intro n _ hn
    have h0 : n = 0 := by simpa using hn
    subst h0
    rfl
  | cons c cs ih =>
    intro n h hn
    rw [allAscii, List.all_cons, Bool.and_eq_true] at h
    cases n with
    | zero => simp [takeBytes_zero]
    | succ m =>
      have h1 := utf8Len_ascii c h.1
      simp only [takeBytes, h1]
      rw [if_pos (by omega : (1 : Nat) ≤ m + 1)]
      have harg : m + 1 - 1 = m := by omega
      have hm : m ≤ cs.length := by simp at hn; omega
      rw [harg, ih m h.2 hm]
      rfl

theorem dropBytes_ascii (s : List Char) :
    ∀ n, allAscii s = true → n ≤ s.length → dropBytes s n = some (s.drop n) := by
  induction s with
  | nil =>
    intro n _ hn
    have h0 : n = 0 := by simpa using hn
    subst h0
    rfl
  | cons c cs ih =>
    intro n h hn
    rw [allAscii, List.all_cons, Bool.and_eq_true] at h
    cases n with
    | zero => simp [dropBytes_zero]
    | succ m =>
      have h1 := utf8Len_ascii c h.1
      simp only [dropBytes, h1]
      rw [if_pos (by omega : (1 : Nat) ≤ m + 1)]
      have harg : m + 1 - 1 = m := by omega
      have hm : m ≤ cs.length := by simp at hn; omega
      rw [harg, ih m h.2 hm]
      rfl

theorem allAscii_sub (s t : List Char) (hsub : ∀ c ∈ t, c ∈ s)
    (h : allAscii s = true) : allAscii t = true := by
  rw [allAscii, List.all_eq_true] at h ⊢
  exact fun c hc => h c (hsub c hc)

theorem asciiLowerChar_spec (c : Char) (h : c.toNat < 128) :
    (asciiLowerChar c).toNat < 128 ∧ isWs (asciiLowerChar c) = isWs c := by
  rw [asciiLowerChar]
  by_cases h2 : 65 ≤ c.toNat ∧ c.toNat ≤ 90
  · rw [if_pos h2]
    have ht : (Char.ofNat (c.toNat + 32)).toNat = c.toNat + 32 :=
      toNat_ofNat_valid _ (by omega)
    refine ⟨by omega, ?_⟩
    rw [isWs_eq_false_of_toNat _ (by omega), isWs_eq_false_of_toNat c (by omega)]
  · rw [if_neg h2]
    exact ⟨h, rfl⟩

theorem toLowercaseChar_ascii (c : Char) (h : isAsciiChar c = true) :
    toLowercaseChar c = [asciiLowerChar c] := by
  have hlt : c.toNat < 128 := by simpa [isAsciiChar] using h
  have hne : c ≠ Char.ofNat 0x130 := by
    intro he
    have h1 : (Char.ofNat 0x130).toNat = 0x130 := toNat_ofNat_valid _ (by omega)
    rw [he, h1] at hlt
    omega
  rw [toLowercaseChar, if_neg hne, asciiLowerChar]
  by_cases h2 : 65 ≤ c.toNat ∧ c.toNat ≤ 90 <;> simp [h2]

theorem to_lowercase_ascii (s : List Char) (h : allAscii s = true) :
    to_lowercase s = s.map asciiLowerChar := by
  induction s with
  | nil => rfl
  | cons c cs ih =>
    rw [allAscii, List.all_cons, Bool.and_eq_true] at h
    have ih2 : (List.map toLowercaseChar cs).flatten = List.map asciiLowerChar cs :=
      ih h.2
    show (List.map toLowercaseChar (c :: cs)).flatten = _
    rw [List.map_cons, List.flatten_cons, toLowercaseChar_ascii c h.1, ih2,
      List.map_cons]
    rfl

theorem allAscii_map_lower (s : List Char) (h : allAscii s = true) :
    allAscii (s.map asciiLowerChar) = true := by
  rw [allAscii, List.all_eq_true]
  intro x hx
  obtain ⟨c, hc, rfl⟩ := List.mem_map.mp hx
  rw [allAscii, List.all_eq_true] at h
  have hlt : c.toNat < 128 := by simpa [isAsciiChar] using h c hc
  have := (asciiLowerChar_spec c hlt).1
  simpa [isAsciiChar] using this

theorem allAscii_conditional (q : List Char) (ic : Bool) (h : allAscii q = true) :
    allAscii (conditional_lowercase q ic) = true := by
  cases ic with
  | false => simpa [conditional_lowercase] using h
  | true =>
    rw [conditional_lowercase, if_pos rfl, to_lowercase_ascii q h]
    exact allAscii_map_lower q h

theorem splitWsAux_map (g : Char → Char) :
    ∀ (s acc : List Char), (∀ c ∈ s, isWs (g c) = isWs c) →
      splitWsAux (s.map g) (acc.map g) = (splitWsAux s acc).map (List.map g) := by
  intro s
  induction s with
  | nil =>
    intro acc _
    rw [List.map_nil, splitWsAux, splitWsAux]
    by_cases ha : acc = []
    · subst ha; rfl
    · have h1 : acc.isEmpty = false := by simpa [List.isEmpty_iff] using ha
      have h2 : (List.map g acc).isEmpty = false := by
        simpa [List.isEmpty_iff, List.map_eq_nil_iff] using ha
      simp [h1, h2, List.map_reverse]
  | cons x xs ih =>
    intro acc hws
    have hx : isWs (g x) = isWs x := hws x (List.mem_cons_self _ _)
    have hxs : ∀ c ∈ xs, isWs (g c) = isWs c :=
      fun c hc => hws c (List.mem_cons_of_mem _ hc)
    rw [List.map_cons, splitWsAux, splitWsAux, hx]
    by_cases hw : isWs x
    · rw [if_pos hw, if_pos hw]
      have h0 := ih [] hxs
      simp only [List.map_nil] at h0
      by_cases ha : acc = []
      · subst ha
        simpa using h0
      · have h1 : acc.isEmpty = false := by simpa [List.isEmpty_iff] using ha
        have h2 : (List.map g acc).isEmpty = false := by
          simpa [List.isEmpty_iff, List.map_eq_nil_iff] using ha
        simp [h1, h2, List.map_reverse, h0]
    · rw [if_neg hw, if_neg hw, ← List.map_cons]
      exact ih (x :: acc) hxs

theorem split_whitespace_map (g : Char → Char) (s : List Char)
    (h : ∀ c ∈ s, isWs (g c) = isWs c) :
    split_whitespace (s.map g) = (split_whitespace s).map (List.map g) := by
  have h0 := splitWsAux_map g s [] h
  simpa [split_whitespace] using h0

theorem splitWsAux_mem (s : List Char) :
    ∀ acc t, t ∈ splitWsAux s acc → ∀ c ∈ t, c ∈ s ∨ c ∈ acc := by
  induction s with
  | nil =>
    intro acc t ht c hc
    rw [splitWsAux] at ht
    by_cases ha : acc.isEmpty
    · simp [ha] at ht
    · simp only [ha, Bool.false_eq_true, if_false, List.mem_singleton] at ht
      subst ht
      exact Or.inr (List.mem_reverse.mp hc)
  | cons x xs ih =>
    intro acc t ht c hc
    rw [splitWsAux] at ht
    by_cases hw : isWs x
    · rw [if_pos hw] at ht
      by_cases ha : acc.isEmpty
      · rw [if_pos ha] at ht
        rcases ih [] t ht c hc with h | h
        · exact Or.inl (List.mem_cons_of_mem _ h)
        · simp at h
      · rw [if_neg ha] at ht
        rcases List.mem_cons.mp ht with rfl | ht2
        · exact Or.inr (List.mem_reverse.mp hc)
        · rcases ih [] t ht2 c hc with h | h
          · exact Or.inl (List.mem_cons_of_mem _ h)
          · simp at h
    · rw [if_neg hw] at ht
      rcases ih (x :: acc) t ht c hc with h | h
      · exact Or.inl (List.mem_cons_of_mem _ h)
      · rcases List.mem_cons.mp h with rfl | h2
        · exact Or.inl (List.mem_cons_self _ _)
        · exact Or.inr h2

theorem split_whitespace_mem (s t : List Char) (ht : t ∈ split_whitespace s) :
    ∀ c ∈ t, c ∈ s := by
  intro c hc
  rcases splitWsAux_mem s [] t ht c hc with h | h
  · exact h
  · simp at h

/-! ### Lines membership -/

theorem mem_splitOnNl (s : List Char) : ∀ p ∈ splitOnNl s, ∀ c ∈ p, c ∈ s := by
  induction s with
  | nil =>
    intro p hp c hc
    simp only [splitOnNl, List.mem_singleton] at hp
    subst hp
    simp at hc
  | cons x xs ih =>
    intro p hp c hc
    rw [splitOnNl] at hp
    by_cases hx : x = '\n'
    · rw [if_pos hx] at hp
      rcases List.mem_cons.mp hp with rfl | hp2
      · simp at hc
      · exact List.mem_cons_of_mem _ (ih p hp2 c hc)
    · rw [if_neg hx] at hp
      cases hsp : splitOnNl xs with
      | nil =>
        rw [hsp] at hp
        simp only [List.mem_singleton] at hp
        subst hp
        rcases List.mem_cons.mp hc with rfl | h2
        · exact List.mem_cons_self _ _
        · simp at h2
      | cons q qs =>
        rw [hsp] at hp
        rcases List.mem_cons.mp hp with rfl | hp2
        · rcases List.mem_cons.mp hc with rfl | hc2
          · exact List.mem_cons_self _ _
          · have hq : q ∈ splitOnNl xs := by rw [hsp]; exact List.mem_cons_self _ _
            exact List.mem_cons_of_mem _ (ih q hq c hc2)
        · have hpx : p ∈ splitOnNl xs := by rw [hsp]; exact List.mem_cons_of_mem _ hp2
          exact List.mem_cons_of_mem _ (ih p hpx c hc)

theorem stripCr_sub (p : List Char) : ∀ c ∈ stripCr p, c ∈ p := by
  intro c hc
  rw [stripCr] at hc
  by_cases h : p.getLast? = some '\r'
  · rw [if_pos h] at hc
    exact (List.dropLast_sublist p).subset hc
  · rw [if_neg h] at hc
    exact hc

theorem mem_rustLines (s : List Char) : ∀ l ∈ rustLines s, ∀ c ∈ l, c ∈ s := by
  intro l hl c hc
  rw [rustLines] at hl
  have hbody : ∀ l2 ∈ (splitOnNl s).dropLast.map stripCr, ∀ c2 ∈ l2, c2 ∈ s := by
    intro l2 hl2 c2 hc2
    obtain ⟨p, hp, rfl⟩ := List.mem_map.mp hl2
    have hps : p ∈ splitOnNl s := (List.dropLast_sublist _).subset hp
    exact mem_splitOnNl s p hps c2 (stripCr_sub p c2 hc2)
  split at hl
  · rename_i last hlast
    by_cases he : last.isEmpty
    · rw [if_pos he] at hl
      exact hbody l hl c hc
    · rw [if_neg he] at hl
      rcases List.mem_append.mp hl with h | h
      · exact hbody l h c hc
      · simp only [List.mem_singleton] at h
        subst h
        exact mem_splitOnNl s l (List.mem_of_getLast?_eq_some hlast) c hc
  · exact hbody l hl c hc

theorem highlightToken_ascii_isSome (query : List Char) (nc : Bool) (o : List Char)
    (ho : allAscii o = true) (hq : allAscii query = true) :
    (highlightToken query nc o (o.map asciiLowerChar)).isSome = true := by
  cases hf : find query (o.map asciiLowerChar) with
  | none => simp [highlightToken, hf]
  | some pos =>
    have hb := find_le query (o.map asciiLowerChar) pos hf
    have hmap : allAscii (o.map asciiLowerChar) = true := allAscii_map_lower o ho
    have h1 : byteLen (o.map asciiLowerChar) = o.length := by
      rw [byteLen_ascii _ hmap, List.length_map]
    have hql : byteLen query = query.length := byteLen_ascii query hq
    rw [h1] at hb
    have hdropAscii : allAscii (o.drop pos) = true :=
      allAscii_sub o _ (fun c hc => List.mem_of_mem_drop hc) ho
    have hlen : (o.drop pos).length = o.length - pos := List.length_drop ..
    simp only [highlightToken, hf, hql,
      takeBytes_ascii o pos ho (by omega),
      dropBytes_ascii o pos ho (by omega),
      takeBytes_ascii (o.drop pos) query.length hdropAscii (by omega),
      dropBytes_ascii (o.drop pos) query.length hdropAscii (by omega)]
    cases nc <;> simp

theorem searchLine_isSome_ascii (query : List Char) (config : Config)
    (line : List Char) (hl : allAscii line = true) (hq : allAscii query = true) :
    (searchLine query config line).isSome = true := by
  apply searchLine_isSome_of_pairs
  intro p hp
  cases hic : config.ignore_case with
  | false =>
    rw [hic] at hp
    simp only [conditional_lowercase, Bool.false_eq_true, if_false] at hp
    have he := zip_self_eq (split_whitespace line) p hp
    rw [← he]
    exact highlightToken_self_isSome query config.no_color p.1
  | true =>
    rw [hic] at hp
    simp only [conditional_lowercase, if_true] at hp
    rw [to_lowercase_ascii line hl] at hp
    have hws : ∀ c ∈ line, isWs (asciiLowerChar c) = isWs c := by
      intro c hc
      have hca : c.toNat < 128 := by
        rw [allAscii, List.all_eq_true] at hl
        simpa [isAsciiChar] using hl c hc
      exact (asciiLowerChar_spec c hca).2
    rw [split_whitespace_map asciiLowerChar line hws] at hp
    obtain ⟨hmem, hsnd⟩ := zip_map_right_mem (split_whitespace line) _ p hp
    rw [hsnd]
    have htok : allAscii p.1 = true :=
      allAscii_sub line p.1 (split_whitespace_mem line p.1 hmem) hl
    exact highlightToken_ascii_isSome query config.no_color p.1 htok hq

/-! ### Pager invariant lemmas -/

theorem pagerStep_le (total page_height offset : Nat) (e : PagerEvent)
    (h : offset ≤ total - page_height) :
    pagerStep total page_height offset e ≤ total - page_height := by
  cases e <;> simp only [pagerStep] <;> (try split) <;> omega

theorem foldl_pagerStep_le (total page_height : Nat) :
    ∀ (events : List PagerEvent) (offset : Nat), offset ≤ total - page_height →
      events.foldl (pagerStep total page_height) offset ≤ total - page_height := by
  intro events
  induction events with
  | nil => intro offset h; simpa using h
  | cons e rest ih =>
    intro offset h
    exact ih _ (pagerStep_le total page_height offset e h)

/-! ### Claim theorems -/

/-- C1: for every contents string and every config, the number of entries in
the result sequence produced by `search` equals the number of source lines
whose comparison view (lowercased copy when ignore_case is set, the original
line otherwise) contains the equally normalized query as a substring; in
particular, when the query is empty every line matches, so the result count
equals the total line count. -/
theorem c1_search_count_eq_matching_lines (contents : List Char) (config : Config)
    (out : SearchOut) (h : search contents config = some out) :
    out.results.length = spec_matching_line_count contents config ∧
    (config.query = [] → out.results.length = (rustLines contents).length) := by
  have hs := searchGo_spec (conditional_lowercase config.query config.ignore_case)
    config (rustLines contents) 0 _ (search_eq_some contents config out h)
  refine ⟨hs.1, fun hq => ?_⟩
  rw [hs.1]
  rw [hq, conditional_lowercase_nil]
  have : ∀ l ∈ rustLines contents,
      (rustContains (conditional_lowercase l config.ignore_case) [] = true) :=
    fun l _ => rustContains_nil _
  rw [List.filter_eq_self.mpr this]

theorem c1_witness :
    search (str "x\ny") ⟨[], str "f", false, true, false, false⟩
      = some ⟨[str "x", str "y"], [0, 1], 2, 2⟩ ∧
    ((⟨[str "x", str "y"], [0, 1], 2, 2⟩ : SearchOut).results.length =
        spec_matching_line_count (str "x\ny") ⟨[], str "f", false, true, false, false⟩ ∧
      ((⟨[], str "f", false, true, false, false⟩ : Config).query = [] →
        (⟨[str "x", str "y"], [0, 1], 2, 2⟩ : SearchOut).results.length
          = (rustLines (str "x\ny")).length)) :=
  ⟨by decide, c1_search_count_eq_matching_lines (str "x\ny")
    ⟨[], str "f", false, true, false, false⟩ ⟨[str "x", str "y"], [0, 1], 2, 2⟩
    (by decide)⟩

/-- C3: for every total, every page_height, and every finite sequence of
navigation events, the pager's viewport offset starting from 0 always
satisfies 0 ≤ offset ≤ max(0, total − page_height). -/
theorem c3_pager_offset_clamped (total page_height : Nat) (events : List PagerEvent) :
    (0 : ℤ) ≤ (paginate total page_height events : ℤ) ∧
    (paginate total page_height events : ℤ) ≤
      max 0 ((total : ℤ) - (page_height : ℤ)) := by
  refine ⟨Int.natCast_nonneg _, ?_⟩
  have h : paginate total page_height events ≤ total - page_height :=
    foldl_pagerStep_le total page_height events 0 (Nat.zero_le _)
  rcases Nat.le_total page_height total with hle | hle
  · refine le_max_of_le_right ?_
    have := Int.ofNat_sub hle
    omega
  · have h0 : total - page_height = 0 := Nat.sub_eq_zero_of_le hle
    rw [h0] at h
    have : paginate total page_height events = 0 := Nat.le_zero.mp h
    rw [this]
    exact le_max_of_le_left (by simp)

/-- C4: the claim states that `render_page` guards the page_height = 0 case
so that computing the footer's page numbers never divides by zero; in fact
the source has no such guard, and both footer divisions are division by
zero whenever page_height = 0, a panic — modelled here by `render_page`
returning `none` for every offset and total. -/
theorem c4_render_page_divides_by_zero (offset total : Nat) :
    render_page offset 0 total = none := rfl

/-- C6: for the query "rUsT" over the four lines "Rust:",
"safe, fast, productive.", "Pick three.", "Trust me.": with
ignore_case = false search returns no entries at all (in particular neither
"Rust:" nor "Trust me." matches); with ignore_case = true it matches exactly
those two lines, at original line indices [0, 3]. -/
theorem c6_case_sensitivity :
    search (str "Rust:\nsafe, fast, productive.\nPick three.\nTrust me.")
        ⟨str "rUsT", str "f", false, true, false, false⟩
      = some ⟨[], [], 4, 0⟩ ∧
    search (str "Rust:\nsafe, fast, productive.\nPick three.\nTrust me.")
        ⟨str "rUsT", str "f", true, true, false, false⟩
      = some ⟨[str "Rust:", str "Trust me."], [0, 3], 4, 2⟩ := by
  constructor <;> decide

/-- C7: for the single input line "safe, fast, productive." and query
"fast": with no_color = true the display text equals the literal input line
with no markup; with no_color = false the display text wraps the match in
the red/bold ANSI marker and still contains the literal substring "fast". -/
theorem c7_highlight_toggle :
    search (str "safe, fast, productive.")
        ⟨str "fast", str "f", false, true, false, false⟩
      = some ⟨[str "safe, fast, productive."], [0], 1, 1⟩ ∧
    search (str "safe, fast, productive.")
        ⟨str "fast", str "f", false, false, false, false⟩
      = some ⟨[str "safe, " ++ red_bold (str "fast") ++ str ", productive."], [0], 1, 1⟩ ∧
    rustContains (str "safe, " ++ red_bold (str "fast") ++ str ", productive.")
      (str "fast") = true := by
  refine ⟨by decide, by decide, by decide⟩

/-- C5: for every contents string and every config, the original line
indices returned by `search` are strictly increasing, hence in source order
and without duplicates. -/
theorem c5_search_indexes_strictly_increasing (contents : List Char) (config : Config)
    (out : SearchOut) (h : search contents config = some out) :
    out.found_indexes.Pairwise (· < ·) :=
  (searchGo_indexes_mono (conditional_lowercase config.query config.ignore_case)
    config (rustLines contents) 0 _ (search_eq_some contents config out h)).1

theorem c5_witness :
    search (str "b\nq\nb\nb") ⟨str "b", str "f", false, true, false, false⟩
      = some ⟨[str "b", str "b", str "b"], [0, 2, 3], 4, 3⟩ ∧
    (⟨[str "b", str "b", str "b"], [0, 2, 3], 4, 3⟩ : SearchOut).found_indexes.Pairwise
      (· < ·) :=
  ⟨by decide, c5_search_indexes_strictly_increasing (str "b\nq\nb\nb")
    ⟨str "b", str "f", false, true, false, false⟩
    ⟨[str "b", str "b", str "b"], [0, 2, 3], 4, 3⟩ (by decide)⟩

/-- C10: for every contents string and every config, the display-text
results and the original line indices returned by `search` have equal
length, so indexing both sequences at the same position is always in
bounds. -/
theorem c10_results_indexes_same_length (contents : List Char) (config : Config)
    (out : SearchOut) (h : search contents config = some out) :
    out.results.length = out.found_indexes.length :=
  (searchGo_spec (conditional_lowercase config.query config.ignore_case)
    config (rustLines contents) 0 _ (search_eq_some contents config out h)).2.1

theorem c10_witness :
    search (str "ab\ncd\nab") ⟨str "ab", str "f", false, true, false, false⟩
      = some ⟨[str "ab", str "ab"], [0, 2], 3, 2⟩ ∧
    (⟨[str "ab", str "ab"], [0, 2], 3, 2⟩ : SearchOut).results.length
      = (⟨[str "ab", str "ab"], [0, 2], 3, 2⟩ : SearchOut).found_indexes.length :=
  ⟨by decide, c10_results_indexes_same_length (str "ab\ncd\nab")
    ⟨str "ab", str "f", false, true, false, false⟩
    ⟨[str "ab", str "ab"], [0, 2], 3, 2⟩ (by decide)⟩

/-- C9: whenever `search` returns an empty result sequence, `run` prints the
"no results" message and returns successfully without invoking the pager;
`paginate` is never reached with total = 0 (whenever `run` hands results to
the pager, the result list is nonempty). -/
theorem c9_run_empty_skips_pagination (contents : List Char) (config : Config)
    (out : SearchOut) (h : search contents config = some out) :
    (out.results = [] →
      run contents config = some (.noResults (str "No results found."))) ∧
    (∀ res idxs, run contents config = some (.paginated res idxs) → res ≠ []) := by
  constructor
  · intro he
    rw [run, h]
    simp [he]
  · intro res idxs hr hres
    rw [run, h] at hr
    by_cases he : out.results.isEmpty
    · simp [he] at hr
    · simp [he] at hr
      rw [← hr.1] at hres
      rw [hres] at he
      simp at he

theorem minByKeyAux_spec (key : α → Nat) :
    ∀ (l : List α) (best : α),
      (minByKeyAux key best l = best ∨ minByKeyAux key best l ∈ l) ∧
      key (minByKeyAux key best l) ≤ key best ∧
      ∀ t ∈ l, key (minByKeyAux key best l) ≤ key t := by
  intro l
  induction l with
  | nil => intro best; simp [minByKeyAux]
  | cons x xs ih =>
    intro best
    rw [minByKeyAux]
    by_cases hx : key x < key best
    · have h2 := ih x
      rw [if_pos hx]
      refine ⟨?_, ?_, ?_⟩
      · rcases h2.1 with he | he
        · exact Or.inr (by rw [he]; exact List.mem_cons_self x xs)
        · exact Or.inr (List.mem_cons_of_mem _ he)
      · exact le_trans h2.2.1 (le_of_lt hx)
      · intro t ht
        rcases List.mem_cons.mp ht with rfl | ht2
        · exact h2.2.1
        · exact h2.2.2 t ht2
    · have h2 := ih best
      rw [if_neg hx]
      refine ⟨?_, h2.2.1, ?_⟩
      · rcases h2.1 with he | he
        · exact Or.inl he
        · exact Or.inr (List.mem_cons_of_mem _ he)
      · intro t ht
        rcases List.mem_cons.mp ht with rfl | ht2
        · exact le_trans h2.2.1 (le_of_not_lt hx)
        · exact h2.2.2 t ht2

set_option maxRecDepth 100000 in
/-- C8: `Config::build` rejects every unrecognized "--"-prefixed flag with
an error naming an allowed flag of minimum edit distance to it; in
particular, for the unrecognized flag --line-numbr against the known flags
the error suggests line-number. -/
theorem c8_unrecognized_flag_suggestion (flag : List Char)
    (h : memB flag allowed_flags = false) :
    (∃ s, s ∈ allowed_flags ∧
        (∀ t ∈ allowed_flags, levenshtein flag s ≤ levenshtein flag t) ∧
        ∀ envKeys a0 q fp,
          Config.build envKeys [a0, q, fp, str "--" ++ flag]
            = .error (str "Unrecognized flag '--" ++ flag ++
                str "'. Did you mean '--" ++ s ++ str "'?")) ∧
    Config.build [] [str "p", str "q", str "f", str "--line-numbr"]
      = .error
        (str "Unrecognized flag '--line-numbr'. Did you mean '--line-number'?") := by
  constructor
  · have hs := minByKeyAux_spec (levenshtein flag)
      [str "no-color", str "line-number", str "stats"] (str "ignore-case")
    refine ⟨minByKeyAux (levenshtein flag) (str "ignore-case")
      [str "no-color", str "line-number", str "stats"], ?_, ?_, ?_⟩
    · rcases hs.1 with he | he
      · rw [allowed_flags, he]; exact List.mem_cons_self _ _
      · rw [allowed_flags]; exact List.mem_cons_of_mem _ he
    · intro t ht
      rw [allowed_flags] at ht
      rcases List.mem_cons.mp ht with rfl | ht2
      · exact hs.2.1
      · exact hs.2.2 t ht2
    · intro envKeys a0 q fp
      have hsd : stripDashes (str "--" ++ flag) = some flag := rfl
      have hmin : (minByKey (levenshtein flag) allowed_flags).getD []
          = minByKeyAux (levenshtein flag) (str "ignore-case")
              [str "no-color", str "line-number", str "stats"] := rfl
      simp [Config.build, parseFlags, hsd, h, hmin]
  · rfl

theorem c8_witness :
    memB (str "line-numbr") allowed_flags = false ∧
    ((∃ s, s ∈ allowed_flags ∧
        (∀ t ∈ allowed_flags,
          levenshtein (str "line-numbr") s ≤ levenshtein (str "line-numbr") t) ∧
        ∀ envKeys a0 q fp,
          Config.build envKeys [a0, q, fp, str "--" ++ str "line-numbr"]
            = .error (str "Unrecognized flag '--" ++ str "line-numbr" ++
                str "'. Did you mean '--" ++ s ++ str "'?")) ∧
      Config.build [] [str "p", str "q", str "f", str "--line-numbr"]
        = .error
          (str "Unrecognized flag '--line-numbr'. Did you mean '--line-number'?")) :=
  ⟨by decide, c8_unrecognized_flag_suggestion (str "line-numbr") (by decide)⟩

/-- C2 counterexample: the claim that `search` never panics for every
contents string and every config (including non-ASCII text) is false on
the code.  With ignore_case set and both the single content line and the
query equal to "İ" (U+0130), the query lowercases to the three-byte
two-character sequence "i" U+0307 while the original token "İ" is only two
bytes, so slicing the original token at the byte length found in the
lowered comparison view falls outside the token — a panic, modelled by
`search` returning `none`. -/
theorem c2_counterexample_dotted_capital_i :
    search [Char.ofNat 0x130]
      ⟨[Char.ofNat 0x130], str "f", true, true, false, false⟩ = none := by
  decide

/-- C2 amended: `search` has no panic and returns a (possibly empty) result
sequence whenever ignore_case is false, or whenever the contents and the
query consist of ASCII characters only (so that lowercasing preserves every
byte offset); the unrestricted claim fails for byte-length-changing case
folds such as U+0130. -/
theorem c2_amended_no_panic (contents : List Char) (config : Config)
    (h : config.ignore_case = false ∨
      (allAscii contents = true ∧ allAscii config.query = true)) :
    (search contents config).isSome = true := by
  have hall : ∀ l ∈ rustLines contents,
      (searchLine (conditional_lowercase config.query config.ignore_case)
        config l).isSome = true := by
    intro l hl
    rcases h with hic | ⟨hc, hq⟩
    · exact searchLine_isSome_sensitive _ config l hic
    · have hlAscii : allAscii l = true :=
        allAscii_sub contents l (mem_rustLines contents l hl) hc
      exact searchLine_isSome_ascii _ config l hlAscii
        (allAscii_conditional config.query config.ignore_case hq)
  have hgo := searchGo_isSome (conditional_lowercase config.query config.ignore_case)
    config (rustLines contents) 0 hall
  rw [search]
  cases hg : searchGo (conditional_lowercase config.query config.ignore_case)
      config 0 (rustLines contents) with
  | none => rw [hg] at hgo; simp at hgo
  | some t => simp

theorem c2_witness :
    ((⟨str "rUsT", str "f", true, true, false, false⟩ : Config).ignore_case = false ∨
      (allAscii (str "Rust:\nTrust me.") = true ∧
        allAscii (⟨str "rUsT", str "f", true, true, false, false⟩ : Config).query
          = true)) ∧
    (search (str "Rust:\nTrust me.")
      ⟨str "rUsT", str "f", true, true, false, false⟩).isSome = true :=
  ⟨by decide, c2_amended_no_panic (str "Rust:\nTrust me.")
    ⟨str "rUsT", str "f", true, true, false, false⟩ (by decide)⟩

theorem c9_witness :
    run (str "abc") ⟨str "zzz", str "f", false, true, false, false⟩
      = some (.noResults (str "No results found.")) :=
  (c9_run_empty_skips_pagination (str "abc")
    ⟨str "zzz", str "f", false, true, false, false⟩ ⟨[], [], 1, 0⟩ (by decide)).1 rfl

end Minigrep
